import Mathlib

/-!
Verification of the noise2same repository core against its specification.

The definitions below are shallow embeddings of the Python source files
`noise2same/fft_conv.py`, `noise2same/network.py` and `noise2same/util.py`.
Tensor contents are modelled with exact arithmetic (`ℚ`/`ℝ`), tensor shapes
with lists of naturals, and Python control flow (asserts, raised errors,
caught exceptions) with `Bool`/`Option`/`Except` values.
-/

namespace Noise2Same

/-! ## Shape model for `fft_conv` (fft_conv.py, lines 52-139)

Shapes are per spatial dimension.  `fft_conv` pads the signal by `padding`
on both sides (line 93), records `signal_size` (line 97), appends one zero
to the last spatial dimension when its length is odd (lines 98-99), runs
`rfftn`/`irfftn` (which restores the even-padded length), and finally crops
with `slice(0, signal_size[i] - kernel.size(i) + (kernel.size(i) % 2),
stride_[i - 2])` (lines 121-132). -/

/-- Length of the Python slice `x[0:stop:step]` taken from a tensor axis of
size `size`, for a non-negative stop and a positive step. -/
def sliceLen (stop step size : ℕ) : ℕ :=
  (min stop size + step - 1) / step

/-- Spatial size of the signal after the `f.pad` call on line 93:
the input size plus `padding` on both sides. -/
def paddedSize (n p : ℕ) : ℕ :=
  n + 2 * p

/-- Extra zero appended to the last spatial dimension (lines 98-99):
one zero exactly when the padded length `m` is odd, else nothing. -/
def evenPadAmount (m : ℕ) : ℕ :=
  if m % 2 = 1 then 1 else 0

/-- Size of a spatial dimension of the `irfftn` output on line 119: the
last dimension was padded to even length and `irfftn` restores it; every
other dimension keeps the padded size. -/
def irfftSize (n p : ℕ) (isLast : Bool) : ℕ :=
  if isLast then paddedSize n p + evenPadAmount (paddedSize n p) else paddedSize n p

/-- Stop index of the crop slice on lines 122-131:
`signal_size[i] - kernel.size(i) + (kernel.size(i) % 2)`, where
`signal_size` is the size recorded on line 97, before the even-length fix. -/
def cropStop (n k p : ℕ) : ℕ :=
  paddedSize n p - k + k % 2

/-- Output length of `fft_conv` along one spatial dimension: the crop slice
`slice(0, cropStop, stride)` applied to the `irfftn` output. -/
def fftConvLen (n k p s : ℕ) (isLast : Bool) : ℕ :=
  sliceLen (cropStop n k p) s (irfftSize n p isLast)

/-- Output length of `fft_conv` along one spatial dimension, computed as if
the extra zero of lines 98-99 had not been appended (the crop slice applied
to a tensor of the un-fixed padded size). -/
def fftConvLenNoEvenFix (n k p s : ℕ) : ℕ :=
  sliceLen (cropStop n k p) s (paddedSize n p)

/-- Output length of a direct (spatial) convolution with input size `n`,
kernel size `k`, padding `p` and stride `s`. -/
def directConvLen (n k p s : ℕ) : ℕ :=
  (n + 2 * p - k) / s + 1

/-- Spatial output shape of `fft_conv` for a list of per-dimension
parameters `(n, k, p, s)`; the last entry is the last spatial dimension. -/
def fftConvSpatialShape (dims : List (ℕ × ℕ × ℕ × ℕ)) : List ℕ :=
  dims.enum.map fun e =>
    fftConvLen e.2.1 e.2.2.1 e.2.2.2.1 e.2.2.2.2 (decide (e.1 + 1 = dims.length))

/-- Spatial output shape of a direct convolution for the same list of
per-dimension parameters. -/
def directConvSpatialShape (dims : List (ℕ × ℕ × ℕ × ℕ)) : List ℕ :=
  dims.map fun d => directConvLen d.1 d.2.1 d.2.2.1 d.2.2.2

/-! ## The shape assert of `fft_conv` (fft_conv.py, lines 101-110)

The kernel is padded (lines 101-107) so that each spatial dimension matches
the corresponding dimension of the (already even-fixed) signal; `f.pad`
with amount `signal.size(i) - kernel.size(i)` makes the kernel's spatial
size exactly the signal's.  Line 108 then asserts
`padded_kernel.shape[1:] == signal.shape[1:]`. -/

/-- Shape of the signal inside `fft_conv` after the `padding` pad and the
even-length fix, given the full input shape `(batch, channels, *spatial)`
and the per-dimension padding. -/
def signalShapeInside (signalShape : List ℕ) (padding : List ℕ) : List ℕ :=
  let spatial := signalShape.drop 2
  let padded := List.zipWith paddedSize spatial padding
  let fixed := padded.enum.map fun e =>
    if e.1 + 1 = padded.length then e.2 + evenPadAmount e.2 else e.2
  signalShape.take 2 ++ fixed

/-- Shape of `padded_kernel` on line 107: the first two dimensions
(out-channels, kernel in-channels) are kept, every spatial dimension is
padded to the signal's size. -/
def paddedKernelShape (kernelShape : List ℕ) (signalInside : List ℕ) : List ℕ :=
  kernelShape.take 2 ++ signalInside.drop 2

/-- The assert on lines 108-110 of fft_conv.py:
`padded_kernel.shape[1:] == signal.shape[1:]`. -/
def fftConvAssertOk (signalShape kernelShape padding : List ℕ) : Bool :=
  let inside := signalShapeInside signalShape padding
  (paddedKernelShape kernelShape inside).drop 1 = inside.drop 1

/-! ## Theorems for the `fft_conv` shape claims -/

/-- Helper: along one spatial dimension, an odd kernel size makes the
`fft_conv` crop length equal to the direct-convolution output length. -/
theorem fftConvLen_eq_directConvLen (n k p s : ℕ) (isLast : Bool)
    (hs : 0 < s) (hk : k ≤ n + 2 * p) (hodd : k % 2 = 1) :
    fftConvLen n k p s isLast = directConvLen n k p s := by
  have hstop : cropStop n k p = (n + 2 * p - k) + 1 := by
    unfold cropStop paddedSize; omega
  have hsize : cropStop n k p ≤ irfftSize n p isLast := by
    unfold cropStop irfftSize paddedSize evenPadAmount
    cases isLast <;> split_ifs <;> omega
  unfold fftConvLen sliceLen directConvLen
  rw [min_eq_left hsize, hstop]
  have harith : n + 2 * p - k + 1 + s - 1 = (n + 2 * p - k) + s := by omega
  rw [harith, Nat.add_div_right _ hs]

/-- C1 (amended): for positive strides and odd kernel sizes not exceeding
the padded input, the spatial output shape of `fft_conv` equals the direct
convolution output shape; each length is `(n + 2p - k) / s + 1`.  (For even
kernel sizes the claim fails, see the counterexample.) -/
theorem fft_conv_shape_matches_direct_for_odd_kernels
    (dims : List (ℕ × ℕ × ℕ × ℕ))
    (h : ∀ d ∈ dims, 0 < d.2.2.2 ∧ d.2.1 ≤ d.1 + 2 * d.2.2.1 ∧ d.2.1 % 2 = 1) :
    fftConvSpatialShape dims = directConvSpatialShape dims := by
  unfold fftConvSpatialShape directConvSpatialShape
  apply List.ext_getElem
  · simp
  · intro i h1 h2
    have hi : i < dims.length := by simpa using h2
    simp only [List.getElem_map, List.getElem_enum]
    have hmem : dims[i] ∈ dims := List.getElem_mem _
    obtain ⟨hs, hk, hodd⟩ := h _ hmem
    exact fftConvLen_eq_directConvLen _ _ _ _ _ hs hk hodd

/-- Witness for C1 (amended) at the concrete dimensions
`(n, k, p, s) = (5, 3, 1, 2)` and `(6, 3, 0, 1)`. -/
theorem fft_conv_shape_matches_direct_witness :
    (∀ d ∈ [(5, 3, 1, 2), (6, 3, 0, 1)],
      0 < d.2.2.2 ∧ d.2.1 ≤ d.1 + 2 * d.2.2.1 ∧ d.2.1 % 2 = 1) ∧
    fftConvSpatialShape [(5, 3, 1, 2), (6, 3, 0, 1)] =
      directConvSpatialShape [(5, 3, 1, 2), (6, 3, 0, 1)] :=
  ⟨by decide, fft_conv_shape_matches_direct_for_odd_kernels _ (by decide)⟩

/-- Counterexample to C1 as stated: with an even kernel size
(one spatial dimension, `n = 4`, `k = 2`, `p = 0`, `s = 1`, any groups)
the `fft_conv` output length is `2` while a direct convolution returns
`floor((4 + 0 - 2)/1) + 1 = 3`. -/
theorem fft_conv_shape_even_kernel_counterexample :
    fftConvSpatialShape [(4, 2, 0, 1)] ≠ directConvSpatialShape [(4, 2, 0, 1)] ∧
    fftConvSpatialShape [(4, 2, 0, 1)] = [2] ∧
    directConvSpatialShape [(4, 2, 0, 1)] = [3] := by
  decide

/-- C2 (code bug): with `in_channels = 2` divisible by `groups = 2`, the
kernel built by `_FFTConv` has channel dimension `in_channels // groups = 1`,
so the assert `padded_kernel.shape[1:] == signal.shape[1:]` on line 108 of
fft_conv.py fails (the channel entries `1` and `2` differ) and the grouped
complex multiplication is never reached. -/
theorem fft_conv_grouped_assert_violation :
    2 % 2 = 0 ∧ 2 / 2 ≠ 2 ∧
    fftConvAssertOk [1, 2, 4] [2, 2 / 2, 1] [0] = false ∧
    fftConvAssertOk [1, 2, 4] [2, 2, 1] [0] = true := by
  decide

/-- C6: the even-length fix appends exactly one extra zero iff the padded
last dimension is odd, and (because the crop stop is computed from the size
recorded before the fix and never exceeds it) the output length is the same
whether or not the extra zero was appended, on the last dimension and on
every other dimension alike. -/
theorem fft_conv_even_fix_shape_invariant (n k p s : ℕ)
    (hk : k ≤ n + 2 * p) :
    (evenPadAmount (paddedSize n p) = 1 ↔ paddedSize n p % 2 = 1) ∧
    (paddedSize n p % 2 = 0 → evenPadAmount (paddedSize n p) = 0) ∧
    fftConvLen n k p s true = fftConvLenNoEvenFix n k p s ∧
    fftConvLen n k p s false = fftConvLenNoEvenFix n k p s := by
  have hstop : cropStop n k p ≤ paddedSize n p := by
    unfold cropStop paddedSize; omega
  refine ⟨?_, ?_, ?_, ?_⟩
  · unfold evenPadAmount; split <;> omega
  · unfold evenPadAmount; split <;> omega
  · unfold fftConvLen fftConvLenNoEvenFix sliceLen irfftSize
    simp only [if_true]
    rw [min_eq_left (le_trans hstop (Nat.le_add_right _ _)), min_eq_left hstop]
  · unfold fftConvLen fftConvLenNoEvenFix sliceLen irfftSize
    simp only [Bool.false_eq_true, if_false]

/-- Witness for C6 at `(n, k, p, s) = (6, 3, 0, 2)` (odd padded length). -/
theorem fft_conv_even_fix_shape_invariant_witness :
    (3 ≤ 6 + 2 * 0) ∧
    ((evenPadAmount (paddedSize 6 0) = 1 ↔ paddedSize 6 0 % 2 = 1) ∧
      (paddedSize 6 0 % 2 = 0 → evenPadAmount (paddedSize 6 0) = 0) ∧
      fftConvLen 6 3 0 2 true = fftConvLenNoEvenFix 6 3 0 2 ∧
      fftConvLen 6 3 0 2 false = fftConvLenNoEvenFix 6 3 0 2) :=
  ⟨by decide, fft_conv_even_fix_shape_invariant 6 3 0 2 (by decide)⟩

/-! ## `_FFTConv.__init__` divisibility checks (fft_conv.py, lines 175-184) -/

/-- Shallow embedding of the two divisibility checks in `_FFTConv.__init__`:
each failing check raises a `ValueError` whose message names the offending
parameters (fft_conv.py, lines 175-184). -/
def fftConvInitCheck (in_channels out_channels groups : ℕ) : Except String Unit :=
  if in_channels % groups ≠ 0 then
    Except.error ("'in_channels' must be divisible by 'groups'." ++
      s!"Found: in_channels={in_channels}, groups={groups}.")
  else if out_channels % groups ≠ 0 then
    Except.error ("'out_channels' must be divisible by 'groups'." ++
      s!"Found: out_channels={out_channels}, groups={groups}.")
  else
    Except.ok ()

/-- C5: `_FFTConv` construction succeeds iff both `in_channels` and
`out_channels` are divisible by `groups`; each violation produces a
`ValueError` whose message names the offending parameters. -/
theorem fft_conv_init_divisibility (in_channels out_channels groups : ℕ)
    (_hg : 0 < groups) :
    (fftConvInitCheck in_channels out_channels groups = Except.ok () ↔
      (in_channels % groups = 0 ∧ out_channels % groups = 0)) ∧
    (in_channels % groups ≠ 0 →
      fftConvInitCheck in_channels out_channels groups =
        Except.error ("'in_channels' must be divisible by 'groups'." ++
          s!"Found: in_channels={in_channels}, groups={groups}.")) ∧
    (in_channels % groups = 0 → out_channels % groups ≠ 0 →
      fftConvInitCheck in_channels out_channels groups =
        Except.error ("'out_channels' must be divisible by 'groups'." ++
          s!"Found: out_channels={out_channels}, groups={groups}.")) := by
  unfold fftConvInitCheck
  refine ⟨?_, ?_, ?_⟩
  · split_ifs with h1 h2 <;> simp_all
  · intro h1; simp [h1]
  · intro h1 h2; simp [h1, h2]

/-- Witness for C5 at `in_channels = 4`, `out_channels = 6`, `groups = 2`
(both divisible) via the success direction of the iff. -/
theorem fft_conv_init_divisibility_witness :
    0 < 2 ∧ fftConvInitCheck 4 6 2 = Except.ok () :=
  ⟨by decide, ((fft_conv_init_divisibility 4 6 2 (by decide)).1).2 (by decide)⟩

/-! ## `UNet.__init__` validation and skip fusion (network.py, 320-326 and 490-495) -/

/-- Shallow embedding of the assert block at the top of `UNet.__init__`
(network.py, lines 320-326), checked in source order; indexing an empty
block-size tuple is folded into a failed check. -/
def unetInitChecks (depth : ℕ) (encoding_block_sizes decoding_block_sizes : List ℕ)
    (downsampling upsampling : List String) (skip_method : String) : Bool :=
  decide (depth = encoding_block_sizes.length) &&
  decide (0 < encoding_block_sizes.headD 0) &&
  decide (encoding_block_sizes.getLastD 1 = 0) &&
  decide (depth = decoding_block_sizes.length + 1) &&
  decide (depth = downsampling.length + 1) &&
  decide (downsampling.length = upsampling.length) &&
  decide (skip_method ∈ ["add", "concat", "cat"])

/-- Shallow embedding of the skip-fusion branch of `UNet.forward`
(network.py, lines 490-495): `"add"` adds the skip tensor in place,
`"cat"`/`"concat"` concatenate along the channel dimension, and any other
method raises a bare `ValueError` (modelled as `none`). -/
def fuseSkip {α : Type} (addOp catOp : α → α → α) (skip_method : String)
    (x skipT : α) : Option α :=
  if skip_method = "add" then some (addOp x skipT)
  else if skip_method = "cat" ∨ skip_method = "concat" then some (catOp x skipT)
  else none

/-- C4: with a valid skip method, `UNet` construction passes its validation
asserts iff `depth = len(encoding_block_sizes)`, the first encoding block
size is nonzero, the last is zero, `depth = len(decoding_block_sizes) + 1`,
`depth = len(downsampling) + 1` and `len(downsampling) = len(upsampling)`;
it fails whenever one of these is violated. -/
theorem unet_init_validation (depth : ℕ)
    (encoding_block_sizes decoding_block_sizes : List ℕ)
    (downsampling upsampling : List String) :
    unetInitChecks depth encoding_block_sizes decoding_block_sizes
        downsampling upsampling "concat" = true ↔
      (depth = encoding_block_sizes.length ∧
        (∃ b, encoding_block_sizes.head? = some b ∧ b ≠ 0) ∧
        encoding_block_sizes.getLast? = some 0 ∧
        depth = decoding_block_sizes.length + 1 ∧
        depth = downsampling.length + 1 ∧
        downsampling.length = upsampling.length) := by
  unfold unetInitChecks
  simp only [Bool.and_eq_true, decide_eq_true_eq]
  constructor
  · rintro ⟨⟨⟨⟨⟨⟨h1, h2⟩, h3⟩, h4⟩, h5⟩, h6⟩, -⟩
    refine ⟨h1, ?_, ?_, h4, h5, h6⟩
    · cases encoding_block_sizes with
      | nil => simp [List.headD] at h2
      | cons a l =>
        refine ⟨a, rfl, ?_⟩
        simp [List.headD] at h2
        omega
    · cases encoding_block_sizes with
      | nil => simp [List.getLastD] at h3
      | cons a l =>
        rw [List.getLastD_eq_getLast?] at h3
        cases hl : (a :: l).getLast? with
        | none => simp [List.getLast?_eq_none_iff] at hl
        | some b => rw [hl] at h3; simp_all
  · rintro ⟨h1, ⟨b, hb, hb0⟩, h3, h4, h5, h6⟩
    refine ⟨⟨⟨⟨⟨⟨h1, ?_⟩, ?_⟩, h4⟩, h5⟩, h6⟩, by decide⟩
    · cases encoding_block_sizes with
      | nil => simp at hb
      | cons a l => simp [List.headD] at hb ⊢; omega
    · rw [List.getLastD_eq_getLast?, h3]; rfl

/-- C10: `"cat"` and `"concat"` both pass `UNet` construction validation and
both fuse by channel concatenation in the forward pass, `"add"` fuses by
addition, and any method outside `{"add", "concat", "cat"}` is rejected at
construction. -/
theorem unet_skip_cat_synonym :
    unetInitChecks 3 [1, 1, 0] [1, 1] ["conv", "conv"] ["conv", "conv"] "cat" = true ∧
    unetInitChecks 3 [1, 1, 0] [1, 1] ["conv", "conv"] ["conv", "conv"] "concat" = true ∧
    (∀ m : String, m ∉ (["add", "concat", "cat"] : List String) →
      ∀ (depth : ℕ) (ebs dbs : List ℕ) (down up : List String),
        unetInitChecks depth ebs dbs down up m = false) ∧
    (∀ (α : Type) (addOp catOp : α → α → α) (x skipT : α),
      fuseSkip addOp catOp "cat" x skipT = some (catOp x skipT) ∧
      fuseSkip addOp catOp "concat" x skipT = some (catOp x skipT) ∧
      fuseSkip addOp catOp "add" x skipT = some (addOp x skipT)) := by
  refine ⟨by decide, by decide, ?_, ?_⟩
  · intro m hm depth ebs dbs down up
    unfold unetInitChecks
    simp only [Bool.and_eq_false_iff]
    right
    simpa using hm
  · intro α addOp catOp x skipT
    refine ⟨rfl, ?_, rfl⟩
    unfold fuseSkip
    rw [if_neg (by decide : ¬("concat" : String) = "add"),
      if_pos (by decide : ("concat" : String) = "cat" ∨ ("concat" : String) = "concat")]

/-- Witness for C10: the unsupported skip method `"foo"` is rejected for
every configuration, including the default one. -/
theorem unet_skip_cat_synonym_witness :
    ("foo" ∉ (["add", "concat", "cat"] : List String)) ∧
    unetInitChecks 3 [1, 1, 0] [1, 1] ["conv", "conv"] ["conv", "conv"] "foo" = false :=
  ⟨by decide, unet_skip_cat_synonym.2.2.1 "foo" (by decide) 3 [1, 1, 0] [1, 1]
    ["conv", "conv"] ["conv", "conv"]⟩

/-! ## `ResidualUnit.forward` (network.py, lines 81-187) -/

/-- Result of calling a sub-module: FFC stacks return a tuple of a local and
a global tensor, plain convolution stacks return one tensor (the
`type(x) == tuple` inspection on network.py line 185 distinguishes them). -/
inductive LayerOut (α : Type) where
  | tensor : α → LayerOut α
  | tuple : α → α → LayerOut α

/-- First component of a sub-module result: the `[0]` projection for a
tuple, the tensor itself otherwise. -/
def LayerOut.first {α : Type} : LayerOut α → α
  | .tensor t => t
  | .tuple a _ => a

/-- Shallow embedding of a `ResidualUnit` (network.py, lines 81-171):
channel counts and flags, plus the tensor maps of its sub-modules `bn`,
`act`, `layers` and `conv_shortcut` (the latter two may return tuples in
the FFC variant). -/
structure ResidualUnitM (α : Type) where
  in_channels : ℕ
  out_channels : ℕ
  downsample : Bool
  ffc : Bool
  bn : α → α
  act : α → α
  layers : α → LayerOut α
  conv_shortcut : α → LayerOut α

/-- Shallow embedding of `ResidualUnit.forward` (network.py, lines 173-187). -/
def ResidualUnitM.forward {α : Type} [Add α] (u : ResidualUnitM α) (x : α) : α :=
  if u.ffc then
    let shortcut := (u.conv_shortcut x).first
    (u.layers x).first + shortcut
  else
    let shortcut := x
    let x1 := u.act (u.bn x)
    let shortcut :=
      if u.in_channels ≠ u.out_channels ∨ u.downsample = true then
        (u.conv_shortcut x1).first
      else shortcut
    (u.layers x1).first + shortcut

/-- C7: a non-FFC `ResidualUnit` returns `layers(relu(bn(x)))` plus a
shortcut, where the shortcut is `conv_shortcut(relu(bn(x)))` exactly when
the channel count changes or the unit downsamples, and the raw input `x`
otherwise. -/
theorem residual_unit_forward_non_ffc {α : Type} [Add α]
    (u : ResidualUnitM α) (x : α) (hffc : u.ffc = false) :
    u.forward x =
      (u.layers (u.act (u.bn x))).first +
        (if u.in_channels ≠ u.out_channels ∨ u.downsample = true then
          (u.conv_shortcut (u.act (u.bn x))).first
        else x) := by
  unfold ResidualUnitM.forward
  rw [hffc]
  simp only [Bool.false_eq_true, if_false]

/-- Witness for C7: a concrete non-FFC unit over `ℤ` in both shortcut
regimes (projection for 1 → 2 channels, identity for 2 → 2 channels). -/
theorem residual_unit_forward_non_ffc_witness :
    (ResidualUnitM.forward
        ⟨1, 2, false, false, (· + 1), (· * 2), fun y => .tensor (y + 10),
          fun y => .tensor (y * 3)⟩ (5 : ℤ) =
      (((5 + 1) * 2 + 10) + ((5 + 1) * 2) * 3 : ℤ)) ∧
    (ResidualUnitM.forward
        ⟨2, 2, false, false, (· + 1), (· * 2), fun y => .tensor (y + 10),
          fun y => .tensor (y * 3)⟩ (5 : ℤ) =
      (((5 + 1) * 2 + 10) + 5 : ℤ)) := by
  constructor
  · rw [residual_unit_forward_non_ffc _ _ rfl]
    norm_num [LayerOut.first]
  · rw [residual_unit_forward_non_ffc _ _ rfl]
    norm_num [LayerOut.first]

/-! ## `load_checkpoint_to_module` (util.py, lines 297-311) -/

/-- Log message printed by `load_checkpoint_to_module` when a checkpoint
attribute is absent from the module (util.py, lines 309-311). -/
def skipMessage (attr : String) : String :=
  s!"Attribute {attr} is present in the checkpoint but absent in the class, do not load"

/-- Lookup of an attribute's state on a module, modelled as an association
list from attribute names to sub-module states (`getattr` succeeds exactly
on the listed names). -/
def lookupAttr {σ : Type} : List (String × σ) → String → Option σ
  | [], _ => none
  | e :: rest, attr => if e.1 = attr then some e.2 else lookupAttr rest attr

/-- Effect of `getattr(module, attr).load_state_dict(state_dict)`: replace
the state stored under `attr`. -/
def loadStateDict {σ : Type} (module : List (String × σ)) (attr : String)
    (sd : σ) : List (String × σ) :=
  module.map fun e => if e.1 = attr then (e.1, sd) else e

/-- Shallow embedding of `load_checkpoint_to_module` (util.py, lines
297-311): iterate over the checkpoint entries in order; an attribute
present on the module has its state loaded, an absent one (the caught
`AttributeError`) is logged and skipped.  Returns the updated module
together with the log messages in order. -/
def load_checkpoint_to_module {σ : Type} (module : List (String × σ)) :
    List (String × σ) → List (String × σ) × List String
  | [] => (module, [])
  | (attr, sd) :: rest =>
    if attr ∈ module.map Prod.fst then
      load_checkpoint_to_module (loadStateDict module attr sd) rest
    else
      let r := load_checkpoint_to_module module rest
      (r.1, skipMessage attr :: r.2)

/-- Helper: unfolding `loadStateDict` on a cons cell. -/
theorem loadStateDict_cons {σ : Type} (e : String × σ) (m : List (String × σ))
    (a : String) (sd : σ) :
    loadStateDict (e :: m) a sd =
      (if e.1 = a then (e.1, sd) else e) :: loadStateDict m a sd := rfl

/-- Helper: loading a state dict does not change the attribute names. -/
theorem loadStateDict_map_fst {σ : Type} (m : List (String × σ)) (a : String) (sd : σ) :
    (loadStateDict m a sd).map Prod.fst = m.map Prod.fst := by
  unfold loadStateDict
  rw [List.map_map]
  congr 1
  funext e
  by_cases h : e.1 = a <;> simp [h]

/-- Helper: after loading a state dict for a present attribute, looking the
attribute up returns the loaded state. -/
theorem lookupAttr_loadStateDict_self {σ : Type} (m : List (String × σ))
    (a : String) (sd : σ) (h : a ∈ m.map Prod.fst) :
    lookupAttr (loadStateDict m a sd) a = some sd := by
  induction m with
  | nil => simp at h
  | cons e rest ih =>
    simp only [List.map_cons, List.mem_cons] at h
    rw [loadStateDict_cons]
    by_cases he : e.1 = a
    · rw [if_pos he]
      simp [lookupAttr, he]
    · rw [if_neg he]
      rw [lookupAttr, if_neg he]
      rcases h with h | h
      · exact absurd h.symm he
      · exact ih h

/-- Helper: loading a state dict for one attribute does not affect lookup
of a different attribute. -/
theorem lookupAttr_loadStateDict_ne {σ : Type} (m : List (String × σ))
    (a b : String) (sd : σ) (hab : a ≠ b) :
    lookupAttr (loadStateDict m b sd) a = lookupAttr m a := by
  induction m with
  | nil => rfl
  | cons e rest ih =>
    rw [loadStateDict_cons]
    by_cases he : e.1 = b
    · rw [if_pos he, lookupAttr, lookupAttr,
        if_neg (by rw [he]; exact fun hc => hab hc.symm),
        if_neg (by rw [he]; exact fun hc => hab hc.symm)]
      exact ih
    · rw [if_neg he, lookupAttr, lookupAttr]
      by_cases hea : e.1 = a
      · rw [if_pos hea, if_pos hea]
      · rw [if_neg hea, if_neg hea]
        exact ih

/-- Helper: loading a checkpoint that never mentions attribute `a` leaves
the state of `a` unchanged. -/
theorem load_checkpoint_lookup_stable {σ : Type} (ckpt : List (String × σ))
    (m : List (String × σ)) (a : String) (ha : a ∉ ckpt.map Prod.fst) :
    lookupAttr (load_checkpoint_to_module m ckpt).1 a = lookupAttr m a := by
  induction ckpt generalizing m with
  | nil => rfl
  | cons e rest ih =>
    simp only [List.map_cons, List.mem_cons] at ha
    push_neg at ha
    obtain ⟨ha1, ha2⟩ := ha
    obtain ⟨b, sd⟩ := e
    rw [load_checkpoint_to_module]
    by_cases hb : b ∈ m.map Prod.fst
    · rw [if_pos hb, ih _ ha2, lookupAttr_loadStateDict_ne _ _ _ _ ha1]
    · rw [if_neg hb]
      exact ih _ ha2

/-- C9: loading a checkpoint is partial-tolerant.  The log messages are
exactly the skip messages of the checkpoint entries whose attribute is
absent from the module, in order (so no absent attribute aborts the load),
and every checkpoint entry naming a present attribute has its state loaded
into the module. -/
theorem load_checkpoint_partial_tolerant {σ : Type}
    (module checkpoint : List (String × σ))
    (hnodup : (checkpoint.map Prod.fst).Nodup) :
    ((load_checkpoint_to_module module checkpoint).2 =
      (checkpoint.filter fun e => decide (e.1 ∉ module.map Prod.fst)).map
        fun e => skipMessage e.1) ∧
    (∀ a sd, (a, sd) ∈ checkpoint → a ∈ module.map Prod.fst →
      lookupAttr (load_checkpoint_to_module module checkpoint).1 a = some sd) := by
  induction checkpoint generalizing module with
  | nil => exact ⟨rfl, by intro a sd h; simp at h⟩
  | cons e rest ih =>
    obtain ⟨b, sd0⟩ := e
    simp only [List.map_cons, List.nodup_cons] at hnodup
    obtain ⟨hb_rest, hrest⟩ := hnodup
    constructor
    · rw [load_checkpoint_to_module]
      by_cases hb : b ∈ module.map Prod.fst
      · rw [if_pos hb]
        have h1 := (ih (loadStateDict module b sd0) hrest).1
        rw [h1, loadStateDict_map_fst, List.filter_cons,
          if_neg (by simp only [decide_eq_true_eq]; exact fun hc => hc hb)]
      · rw [if_neg hb]
        have h1 := (ih module hrest).1
        rw [List.filter_cons, if_pos (decide_eq_true hb)]
        simp only [List.map_cons]
        rw [h1]
    · intro a sd hmem hpresent
      rw [load_checkpoint_to_module]
      rcases List.mem_cons.mp hmem with heq | hmem_rest
      · rw [Prod.mk.injEq] at heq
        obtain ⟨rfl, rfl⟩ := heq
        rw [if_pos hpresent]
        rw [load_checkpoint_lookup_stable _ _ _ hb_rest]
        exact lookupAttr_loadStateDict_self _ _ _ hpresent
      · by_cases hb : b ∈ module.map Prod.fst
        · rw [if_pos hb]
          refine (ih (loadStateDict module b sd0) hrest).2 a sd hmem_rest ?_
          rw [loadStateDict_map_fst]
          exact hpresent
        · rw [if_neg hb]
          exact (ih module hrest).2 a sd hmem_rest hpresent

/-- Witness for C9: a module with attributes `net` and `opt`, a checkpoint
with states for `net` and for the absent attribute `sched`; the load skips
`sched` with the logged message and updates `net`. -/
theorem load_checkpoint_partial_tolerant_witness :
    ((([("net", 7), ("sched", 9)] : List (String × ℕ)).map Prod.fst).Nodup) ∧
    ((load_checkpoint_to_module [("net", 1), ("opt", 2)]
        [("net", 7), ("sched", 9)]).2 =
      (([("net", 7), ("sched", 9)] : List (String × ℕ)).filter
        (fun e => decide (e.1 ∉ ([("net", 1), ("opt", 2)] : List (String × ℕ)).map Prod.fst))).map
        (fun e => skipMessage e.1) ∧
      (∀ a sd, (a, sd) ∈ ([("net", 7), ("sched", 9)] : List (String × ℕ)) →
        a ∈ ([("net", 1), ("opt", 2)] : List (String × ℕ)).map Prod.fst →
        lookupAttr (load_checkpoint_to_module [("net", 1), ("opt", 2)]
          [("net", 7), ("sched", 9)]).1 a = some sd)) :=
  ⟨by decide,
    load_checkpoint_partial_tolerant [("net", 1), ("opt", 2)]
      [("net", 7), ("sched", 9)] (by decide)⟩

/-! ## `normalize_min_mse` (util.py, lines 137-222)

The pair of images is modelled as flat lists of exact rationals; `np.mean`,
`np.var` (divisor `N`), `np.cov` (default divisor `N - 1`) and
`np.percentile` (linear interpolation) are embedded accordingly. -/

/-- Mean of a list of values, as `np.mean`. -/
def npMean (l : List ℚ) : ℚ := l.sum / l.length

/-- Values with the mean subtracted, as `x - np.mean(x)`. -/
def centeredVals (l : List ℚ) : List ℚ := l.map fun v => v - npMean l

/-- Population variance, as `np.var` (divisor `N`). -/
def npVar (l : List ℚ) : ℚ := ((centeredVals l).map fun v => v ^ 2).sum / l.length

/-- Off-diagonal entry of `np.cov(x, y)` with numpy's default divisor
`N - 1`. -/
def npCov01 (x y : List ℚ) : ℚ :=
  (List.zipWith (· * ·) (centeredVals x) (centeredVals y)).sum / ((x.length : ℚ) - 1)

/-- Percentile with linear interpolation, as `np.percentile(x, q)`. -/
def npPercentile (l : List ℚ) (q : ℚ) : ℚ :=
  let s := List.insertionSort (· ≤ ·) l
  let pos := q / 100 * ((l.length : ℚ) - 1)
  let frac := pos - ⌊pos⌋
  let a := s.getD (⌊pos⌋).toNat 0
  let b := s.getD (min ((⌊pos⌋).toNat + 1) (l.length - 1)) 0
  a + frac * (b - a)

/-- Shallow embedding of `normalize_mi_ma` (util.py, lines 137-168):
`(x - mi) / (ma - mi + eps)` with `eps = 1e-20`. -/
def normalize_mi_ma (x : List ℚ) (mi ma : ℚ) : List ℚ :=
  x.map fun v => (v - mi) / (ma - mi + 1 / 10 ^ 20)

/-- Shallow embedding of `normalize_percentile` (util.py, lines 171-194). -/
def normalize_percentile (x : List ℚ) (p_min p_max : ℚ) : List ℚ :=
  normalize_mi_ma x (npPercentile x p_min) (npPercentile x p_max)

/-- Scale computed on util.py line 221 from the already centered arrays:
`np.cov(x, gt)[0, 1] / np.var(x)`. -/
def nmmScale (xc gtc : List ℚ) : ℚ := npCov01 xc gtc / npVar xc

/-- Shallow embedding of `normalize_min_mse` (util.py, lines 207-222):
with `normalize_gt` (the default) the ground truth is first normalized by
the 0.1/99.9 percentiles; both arrays are centered; the scale
`np.cov(x, gt)[0, 1] / np.var(x)` multiplies the centered `x`. -/
def normalize_min_mse (gt x : List ℚ) (normalize_gt : Bool) : List ℚ × List ℚ :=
  let gt1 := if normalize_gt then normalize_percentile gt (1 / 10) (999 / 10) else gt
  let xc := centeredVals x
  let gtc := centeredVals gt1
  (gtc, xc.map fun v => nmmScale xc gtc * v)

/-- Scale `cov(x, gt) / var(x)` computed with one consistent
degrees-of-freedom divisor for covariance and variance (any common divisor
cancels): the least-squares scale `Σ x̃ g̃ / Σ x̃²`. -/
def consistentScale (g x : List ℚ) : ℚ :=
  (List.zipWith (· * ·) (centeredVals x) (centeredVals g)).sum /
    ((centeredVals x).map fun v => v ^ 2).sum

/-- Mean squared error of two equally long lists. -/
def mseList (a b : List ℚ) : ℚ :=
  (List.zipWith (fun u v => (u - v) ^ 2) a b).sum / a.length

/-- Sum of products over a pair of lists, truncated to the shorter one. -/
def sumProd (g x : List ℚ) : ℚ := (List.zipWith (· * ·) g x).sum

/-- Sum of squares of the second list over a pair of lists, truncated to
the shorter one. -/
def sumSqSnd (g x : List ℚ) : ℚ := (List.zipWith (fun _ v => v ^ 2) g x).sum

/-- Sum of squares of the first list over a pair of lists, truncated to
the shorter one. -/
def sumSqFst (g x : List ℚ) : ℚ := (List.zipWith (fun u _ => u ^ 2) g x).sum

/-- Sum of squared residuals of `g` against `t * x`. -/
def qsum (g x : List ℚ) (t : ℚ) : ℚ :=
  (List.zipWith (fun u v => (u - t * v) ^ 2) g x).sum

/-- Helper: subtracting a constant from every entry subtracts `N` times the
constant from the sum. -/
theorem sum_map_sub_const (l : List ℚ) (c : ℚ) :
    (l.map fun v => v - c).sum = l.sum - l.length * c := by
  induction l with
  | nil => simp
  | cons a t ih =>
    simp only [List.map_cons, List.sum_cons, ih, List.length_cons]
    push_cast
    ring

/-- Helper: centered values sum to zero. -/
theorem centeredVals_sum (l : List ℚ) : (centeredVals l).sum = 0 := by
  unfold centeredVals npMean
  rw [sum_map_sub_const]
  rcases Nat.eq_zero_or_pos l.length with h | h
  · rw [List.length_eq_zero.mp h]
    simp
  · have hne : (l.length : ℚ) ≠ 0 := by positivity
    field_simp

/-- Helper: centering is idempotent. -/
theorem centeredVals_idem (l : List ℚ) :
    centeredVals (centeredVals l) = centeredVals l := by
  have h : npMean (centeredVals l) = 0 := by
    unfold npMean
    rw [centeredVals_sum, zero_div]
  rw [show centeredVals (centeredVals l) =
      (centeredVals l).map (fun v => v - npMean (centeredVals l)) from rfl, h]
  simp

/-- Helper: centering preserves the length. -/
theorem centeredVals_length (l : List ℚ) : (centeredVals l).length = l.length := by
  simp [centeredVals]

/-- Helper: percentile normalization preserves the length. -/
theorem normalize_percentile_length (x : List ℚ) (a b : ℚ) :
    (normalize_percentile x a b).length = x.length := by
  simp [normalize_percentile, normalize_mi_ma]

/-- Helper: the residual sum of squares is a quadratic in the scale. -/
theorem qsum_expand (g x : List ℚ) (t : ℚ) :
    qsum g x t = sumSqFst g x - 2 * t * sumProd g x + t ^ 2 * sumSqSnd g x := by
  induction g generalizing x with
  | nil => simp [qsum, sumSqFst, sumProd, sumSqSnd]
  | cons a gt ih =>
    cases x with
    | nil => simp [qsum, sumSqFst, sumProd, sumSqSnd]
    | cons b xt =>
      simp only [qsum, sumSqFst, sumProd, sumSqSnd, List.zipWith_cons_cons,
        List.sum_cons] at *
      rw [ih]
      ring

/-- Helper: with equal lengths, the truncated sum of squares of the second
list is the plain sum of squares. -/
theorem sumSqSnd_eq_of_length_eq (g x : List ℚ) (h : g.length = x.length) :
    sumSqSnd g x = (x.map fun v => v ^ 2).sum := by
  induction g generalizing x with
  | nil =>
    have : x = [] := List.length_eq_zero.mp h.symm
    simp [this, sumSqSnd]
  | cons a gt ih =>
    cases x with
    | nil => simp at h
    | cons b xt =>
      simp only [List.length_cons, Nat.succ.injEq] at h
      simp only [sumSqSnd, List.zipWith_cons_cons, List.sum_cons, List.map_cons] at *
      rw [ih _ h]

/-- Helper: the sum of pairwise products is symmetric. -/
theorem sumProd_comm (g x : List ℚ) : sumProd g x = sumProd x g := by
  induction g generalizing x with
  | nil => cases x <;> simp [sumProd]
  | cons a gt ih =>
    cases x with
    | nil => simp [sumProd]
    | cons b xt =>
      simp only [sumProd, List.zipWith_cons_cons, List.sum_cons] at *
      rw [ih]
      ring

/-- Helper: the least-squares scale minimizes the residual sum of squares. -/
theorem qsum_min (g x : List ℚ) (hS : 0 < sumSqSnd g x) (t : ℚ) :
    qsum g x (sumProd g x / sumSqSnd g x) ≤ qsum g x t := by
  rw [qsum_expand, qsum_expand]
  set A := sumSqSnd g x with hA
  set B := sumProd g x with hB
  set C := sumSqFst g x with hC
  have hA0 : A ≠ 0 := ne_of_gt hS
  have key : (C - 2 * t * B + t ^ 2 * A) - (C - 2 * (B / A) * B + (B / A) ^ 2 * A) =
      (t * A - B) ^ 2 / A := by
    field_simp
    ring
  have hnn : 0 ≤ (t * A - B) ^ 2 / A := div_nonneg (sq_nonneg _) hS.le
  linarith

/-- C3 (amended): `normalize_min_mse(gt, x)` (default `normalize_gt=True`)
returns the centered percentile-normalized `gt` together with the centered
`x` scaled by `np.cov(x, gt)[0,1] / np.var(x)`; because numpy's covariance
divides by `N - 1` while its variance divides by `N`, this scale equals
`N/(N-1)` times the consistent-convention scale `cov/var` (the affine scale
minimizing the mean squared error), not that scale itself. -/
theorem normalize_min_mse_scale_characterization (gt x : List ℚ)
    (hlen : gt.length = x.length) (h2 : 2 ≤ x.length) (hvar : npVar x ≠ 0) :
    normalize_min_mse gt x true =
      (centeredVals (normalize_percentile gt (1 / 10) (999 / 10)),
        (centeredVals x).map fun v =>
          nmmScale (centeredVals x)
            (centeredVals (normalize_percentile gt (1 / 10) (999 / 10))) * v) ∧
    nmmScale (centeredVals x)
        (centeredVals (normalize_percentile gt (1 / 10) (999 / 10))) =
      ((x.length : ℚ) / ((x.length : ℚ) - 1)) *
        consistentScale (normalize_percentile gt (1 / 10) (999 / 10)) x ∧
    (∀ t : ℚ,
      mseList (centeredVals (normalize_percentile gt (1 / 10) (999 / 10)))
          ((centeredVals x).map fun v =>
            consistentScale (normalize_percentile gt (1 / 10) (999 / 10)) x * v) ≤
        mseList (centeredVals (normalize_percentile gt (1 / 10) (999 / 10)))
          ((centeredVals x).map fun v => t * v)) := by
  have hpos : 0 < x.length := Nat.lt_of_lt_of_le (by norm_num) h2
  have hN0 : (x.length : ℚ) ≠ 0 := by
    have hq : (0 : ℚ) < x.length := by exact_mod_cast hpos
    exact ne_of_gt hq
  have hN1 : (x.length : ℚ) - 1 ≠ 0 := by
    have hq : (2 : ℚ) ≤ x.length := by exact_mod_cast h2
    intro hc
    rw [sub_eq_zero] at hc
    rw [hc] at hq
    norm_num at hq
  have hS : ((centeredVals x).map fun v => v ^ 2).sum ≠ 0 := by
    intro hc
    apply hvar
    unfold npVar
    rw [hc, zero_div]
  have hSnn : (0 : ℚ) ≤ ((centeredVals x).map fun v => v ^ 2).sum := by
    apply List.sum_nonneg
    intro v hv
    obtain ⟨w, _, rfl⟩ := List.mem_map.mp hv
    positivity
  have hSpos : 0 < ((centeredVals x).map fun v => v ^ 2).sum :=
    lt_of_le_of_ne hSnn (Ne.symm hS)
  refine ⟨rfl, ?_, ?_⟩
  · unfold nmmScale npCov01 npVar consistentScale
    rw [centeredVals_idem, centeredVals_idem, centeredVals_length]
    field_simp
    ring
  · intro t
    have hlg : (centeredVals (normalize_percentile gt (1 / 10) (999 / 10))).length =
        (centeredVals x).length := by
      rw [centeredVals_length, centeredVals_length, normalize_percentile_length]
      exact hlen
    have hrw : ∀ s : ℚ,
        (List.zipWith (fun u v => (u - v) ^ 2)
            (centeredVals (normalize_percentile gt (1 / 10) (999 / 10)))
            ((centeredVals x).map fun v => s * v)).sum =
          qsum (centeredVals (normalize_percentile gt (1 / 10) (999 / 10)))
            (centeredVals x) s := by
      intro s
      unfold qsum
      rw [List.zipWith_map_right]
    have hsnd : sumSqSnd (centeredVals (normalize_percentile gt (1 / 10) (999 / 10)))
        (centeredVals x) = ((centeredVals x).map fun v => v ^ 2).sum :=
      sumSqSnd_eq_of_length_eq _ _ hlg
    have hSpos2 : 0 < sumSqSnd (centeredVals (normalize_percentile gt (1 / 10) (999 / 10)))
        (centeredVals x) := by
      rw [hsnd]
      exact hSpos
    have hscale : consistentScale (normalize_percentile gt (1 / 10) (999 / 10)) x =
        sumProd (centeredVals (normalize_percentile gt (1 / 10) (999 / 10)))
            (centeredVals x) /
          sumSqSnd (centeredVals (normalize_percentile gt (1 / 10) (999 / 10)))
            (centeredVals x) := by
      unfold consistentScale
      rw [hsnd]
      rw [show (List.zipWith (· * ·) (centeredVals x)
          (centeredVals (normalize_percentile gt (1 / 10) (999 / 10)))).sum =
          sumProd (centeredVals x)
            (centeredVals (normalize_percentile gt (1 / 10) (999 / 10))) from rfl]
      rw [sumProd_comm]
    have hmin := qsum_min (centeredVals (normalize_percentile gt (1 / 10) (999 / 10)))
      (centeredVals x) hSpos2 t
    rw [← hscale] at hmin
    unfold mseList
    rw [hrw, hrw]
    rw [div_eq_mul_inv, div_eq_mul_inv]
    have hinv : (0 : ℚ) ≤
        (((centeredVals (normalize_percentile gt (1 / 10) (999 / 10))).length : ℚ))⁻¹ := by
      positivity
    exact mul_le_mul_of_nonneg_right hmin hinv

/-- Witness for C3 (amended) at `gt = [0, 4]`, `x = [0, 2]`. -/
theorem normalize_min_mse_scale_characterization_witness :
    (([0, 4] : List ℚ).length = ([0, 2] : List ℚ).length ∧
      2 ≤ ([0, 2] : List ℚ).length ∧ npVar ([0, 2] : List ℚ) ≠ 0) ∧
    nmmScale (centeredVals [0, 2])
        (centeredVals (normalize_percentile [0, 4] (1 / 10) (999 / 10))) =
      ((([0, 2] : List ℚ).length : ℚ) / ((([0, 2] : List ℚ).length : ℚ) - 1)) *
        consistentScale (normalize_percentile [0, 4] (1 / 10) (999 / 10)) [0, 2] :=
  ⟨⟨by decide, by decide, by norm_num [npVar, centeredVals, npMean]⟩,
    (normalize_min_mse_scale_characterization [0, 4] [0, 2] (by decide) (by decide)
      (by norm_num [npVar, centeredVals, npMean])).2.1⟩

/-- Counterexample to C3 as stated: at `gt = [0, 4]`, `x = [0, 2]`
the function returns neither `s * centered x` for the consistent-convention
scale `s = cov(x, gt)/var(x)` (numpy's `cov` divides by `N - 1` but its
`var` divides by `N`, giving `4/d` instead of `2`), nor the centered `gt`
as first component (the default path percentile-normalizes `gt` first). -/
theorem normalize_min_mse_counterexample :
    (normalize_min_mse [0, 4] [0, 2] true).2 ≠
      ((centeredVals [0, 2]).map fun v => consistentScale [0, 4] [0, 2] * v) ∧
    (normalize_min_mse [0, 4] [0, 2] true).1 ≠ centeredVals [0, 4] := by
  norm_num [normalize_min_mse, nmmScale, npCov01, npVar, npMean, centeredVals,
    consistentScale, normalize_percentile, normalize_mi_ma, npPercentile,
    List.insertionSort, List.orderedInsert]

/-! ## Mutual information (util.py, lines 339-397)

`mutual_information` flattens both images, builds a 256-bin 2-d histogram
(`np.histogram2d`), computes the mutual information of the contingency
table and divides by its joint entropy (`normalised=True`, the default).
Images are flat lists of exact rationals; the histogram is a `ℕ`-valued
contingency table; the information quantities live in `ℝ` with `log2`
modelled by `Real.logb 2`. -/

/-- Minimum of a list (`np.min`); only used with nonempty data. -/
def listMin : List ℚ → ℚ
  | [] => 0
  | a :: t => t.foldl min a

/-- Maximum of a list (`np.max`); only used with nonempty data. -/
def listMax : List ℚ → ℚ
  | [] => 0
  | a :: t => t.foldl max a

/-- Bin index of a value for `np.histogram2d` with `bins` equal-width bins
spanning `[mn, mx]` (edges `linspace(mn, mx, bins + 1)`): values land in
`[e_i, e_{i+1})`, the last bin is closed on the right; a degenerate range
puts every value into bin 0. -/
def binIndex (mn mx : ℚ) (bins : ℕ) (v : ℚ) : ℕ :=
  if mx ≤ mn then 0
  else min (bins - 1) (⌊(v - mn) / (mx - mn) * bins⌋).toNat

/-- Contingency table `np.histogram2d(a, b, bins)[0]`: entry `(i, j)`
counts the positions whose `a`-value falls in bin `i` and whose `b`-value
falls in bin `j`. -/
def hist2d (a b : List ℚ) (bins : ℕ) (i j : ℕ) : ℕ :=
  ((a.zip b).filter fun q =>
    decide (binIndex (listMin a) (listMax a) bins q.1 = i) &&
    decide (binIndex (listMin b) (listMax b) bins q.2 = j)).length

/-- Sum of all entries of a contingency table (`contingency.sum()`). -/
def contTotal (c : ℕ → ℕ → ℕ) (m n : ℕ) : ℕ :=
  ∑ i ∈ Finset.range m, ∑ j ∈ Finset.range n, c i j

/-- Row marginal `pi = contingency.sum(axis=1)`. -/
def rowSum (c : ℕ → ℕ → ℕ) (n i : ℕ) : ℕ := ∑ j ∈ Finset.range n, c i j

/-- Column marginal `pj = contingency.sum(axis=0)`. -/
def colSum (c : ℕ → ℕ → ℕ) (m j : ℕ) : ℕ := ∑ i ∈ Finset.range m, c i j

/-- Shallow embedding of `mutual_info_from_contingency` (util.py, lines
371-397): over the nonzero cells, with `p = n_ij / N`, sum
`p * (log2 n_ij - log2 N) + p * (-log2(pi_i * pj_j) + log2 N + log2 N)`
(`pi.sum()` and `pj.sum()` both equal `N`). -/
noncomputable def mutual_info_from_contingency (c : ℕ → ℕ → ℕ) (m n : ℕ) : ℝ :=
  ∑ i ∈ Finset.range m, ∑ j ∈ Finset.range n,
    if c i j = 0 then 0 else
      (c i j : ℝ) / (contTotal c m n : ℝ) *
          (Real.logb 2 (c i j : ℝ) - Real.logb 2 (contTotal c m n : ℝ)) +
        (c i j : ℝ) / (contTotal c m n : ℝ) *
          (-Real.logb 2 ((rowSum c n i : ℝ) * (colSum c m j : ℝ)) +
            Real.logb 2 (contTotal c m n : ℝ) +
            Real.logb 2 (contTotal c m n : ℝ))

/-- Shallow embedding of `joint_entropy_from_contingency` (util.py, lines
349-368): over the nonzero cells, with `p = n_ij / N`, sum `-p * log2 p`. -/
noncomputable def joint_entropy_from_contingency (c : ℕ → ℕ → ℕ) (m n : ℕ) : ℝ :=
  ∑ i ∈ Finset.range m, ∑ j ∈ Finset.range n,
    if c i j = 0 then 0 else
      -((c i j : ℝ) / (contTotal c m n : ℝ)) *
        Real.logb 2 ((c i j : ℝ) / (contTotal c m n : ℝ))

/-- Division of finite numpy floats: a zero denominator produces a
non-finite result (`0.0/0.0 = NaN`; here the numerator always vanishes
with the denominator), modelled as `none`; otherwise the exact quotient. -/
noncomputable def npDiv (x y : ℝ) : Option ℝ :=
  if y = 0 then none else some (x / y)

/-- Shallow embedding of `mutual_information` (util.py, lines 339-346) with
the default `bins=256` and `normalised=True`: the contingency mutual
information divided by the joint entropy.  The division is `npDiv`, so a
zero joint entropy (a constant image puts all mass into a single histogram
cell) yields `none`, the model of numpy's `NaN`. -/
noncomputable def mutual_information (a b : List ℚ) : Option ℝ :=
  npDiv (mutual_info_from_contingency (hist2d a b 256) 256 256)
    (joint_entropy_from_contingency (hist2d a b 256) 256 256)

/-! ### Structural facts about the histogram -/

/-- Helper: every bin index is below `bins`. -/
theorem binIndex_lt (mn mx : ℚ) (bins : ℕ) (v : ℚ) (hb : 0 < bins) :
    binIndex mn mx bins v < bins := by
  unfold binIndex
  split_ifs
  · exact hb
  · exact lt_of_le_of_lt (min_le_left _ _) (Nat.sub_lt hb (by norm_num))

/-- Helper: zipping a list with itself pairs each element with itself. -/
theorem zip_self_eq_map (a : List ℚ) : a.zip a = a.map fun v => (v, v) := by
  induction a with
  | nil => rfl
  | cons x t ih => simp [List.zip_cons_cons, ih]

/-- Helper: summing the sizes of the fibers of `f` below a bound `M`
containing every value of `f` on the list recovers the list's length. -/
theorem sum_filter_fiber_length {α : Type} (l : List α) (f : α → ℕ) (M : ℕ)
    (hf : ∀ x ∈ l, f x < M) :
    ∑ i ∈ Finset.range M, (l.filter fun x => decide (f x = i)).length = l.length := by
  induction l with
  | nil => simp
  | cons a t ih =>
    have ha : f a ∈ Finset.range M := Finset.mem_range.mpr (hf a (List.mem_cons_self a t))
    have hstep : ∀ i : ℕ, ((a :: t).filter fun x => decide (f x = i)).length =
        (if f a = i then 1 else 0) + (t.filter fun x => decide (f x = i)).length := by
      intro i
      rw [List.filter_cons]
      by_cases h : f a = i
      · rw [if_pos (by simpa using h), if_pos h]
        simp [Nat.add_comm]
      · rw [if_neg (by simpa using h), if_neg h]
        simp
    rw [Finset.sum_congr rfl fun i _ => hstep i, Finset.sum_add_distrib,
      ih fun x hx => hf x (List.mem_cons_of_mem a hx), Finset.sum_ite_eq, if_pos ha,
      List.length_cons]
    omega

/-- Helper: the histogram's total count is the number of zipped samples. -/
theorem hist2d_total (a b : List ℚ) (bins : ℕ) (hb : 0 < bins) :
    contTotal (hist2d a b bins) bins bins = (a.zip b).length := by
  unfold contTotal
  have hinner : ∀ i : ℕ, ∑ j ∈ Finset.range bins, hist2d a b bins i j =
      ((a.zip b).filter fun q =>
        decide (binIndex (listMin a) (listMax a) bins q.1 = i)).length := by
    intro i
    have hsplit : ∀ j : ℕ, hist2d a b bins i j =
        (((a.zip b).filter fun q =>
            decide (binIndex (listMin a) (listMax a) bins q.1 = i)).filter fun q =>
          decide (binIndex (listMin b) (listMax b) bins q.2 = j)).length := by
      intro j
      unfold hist2d
      rw [List.filter_filter]
      congr 1
      apply List.filter_congr
      intro x _
      exact Bool.and_comm _ _
    rw [Finset.sum_congr rfl fun j _ => hsplit j]
    exact sum_filter_fiber_length _ _ _ fun x _ => binIndex_lt _ _ _ _ hb
  rw [Finset.sum_congr rfl fun i _ => hinner i]
  exact sum_filter_fiber_length _ _ _ fun x _ => binIndex_lt _ _ _ _ hb

/-- Helper: the self-histogram is diagonal. -/
theorem hist2d_self_diagonal (a : List ℚ) (bins : ℕ) {i j : ℕ} (hij : i ≠ j) :
    hist2d a a bins i j = 0 := by
  unfold hist2d
  rw [List.length_eq_zero, List.filter_eq_nil_iff]
  intro q hq
  obtain ⟨h1, h2⟩ := List.of_mem_zip hq
  rw [zip_self_eq_map] at hq
  obtain ⟨v, _, rfl⟩ := List.mem_map.mp hq
  simp only [Bool.and_eq_true, decide_eq_true_eq]
  rintro ⟨rfl, rfl⟩
  exact hij rfl

/-- Helper: if every `a`-value falls in bin `i0`, the histogram of `a`
against any `b` vanishes outside row `i0`. -/
theorem hist2d_single_row (a b : List ℚ) (bins : ℕ) (i0 : ℕ)
    (hall : ∀ v ∈ a, binIndex (listMin a) (listMax a) bins v = i0)
    {i : ℕ} (hi : i ≠ i0) (j : ℕ) :
    hist2d a b bins i j = 0 := by
  unfold hist2d
  rw [List.length_eq_zero, List.filter_eq_nil_iff]
  intro q hq
  obtain ⟨h1, _⟩ := List.of_mem_zip hq
  simp only [Bool.and_eq_true, decide_eq_true_eq]
  rintro ⟨rfl, -⟩
  exact hi (hall _ h1)

/-! ### Contingency-table facts -/

/-- Helper: a cell is at most its row marginal. -/
theorem cell_le_rowSum (c : ℕ → ℕ → ℕ) (n i : ℕ) {j : ℕ} (hj : j < n) :
    c i j ≤ rowSum c n i :=
  Finset.single_le_sum (fun _ _ => Nat.zero_le _) (Finset.mem_range.mpr hj)

/-- Helper: a cell is at most its column marginal. -/
theorem cell_le_colSum (c : ℕ → ℕ → ℕ) (m : ℕ) {i : ℕ} (j : ℕ) (hi : i < m) :
    c i j ≤ colSum c m j :=
  Finset.single_le_sum (f := fun x => c x j) (fun _ _ => Nat.zero_le _)
    (Finset.mem_range.mpr hi)

/-- Helper: a row marginal is at most the total count. -/
theorem rowSum_le_total (c : ℕ → ℕ → ℕ) (m n : ℕ) {i : ℕ} (hi : i < m) :
    rowSum c n i ≤ contTotal c m n :=
  Finset.single_le_sum (f := fun i => rowSum c n i) (fun _ _ => Nat.zero_le _)
    (Finset.mem_range.mpr hi)

/-- Helper: a cell is at most the total count. -/
theorem cell_le_total (c : ℕ → ℕ → ℕ) (m n : ℕ) {i j : ℕ} (hi : i < m) (hj : j < n) :
    c i j ≤ contTotal c m n :=
  le_trans (cell_le_rowSum c n i hj) (rowSum_le_total c m n hi)

/-- Helper: the total count is the sum of the column marginals. -/
theorem total_eq_sum_colSum (c : ℕ → ℕ → ℕ) (m n : ℕ) :
    contTotal c m n = ∑ j ∈ Finset.range n, colSum c m j := by
  unfold contTotal colSum
  exact Finset.sum_comm

/-- Helper: a table that vanishes on the index rectangle has zero mutual
information. -/
theorem mi_cont_eq_zero_of_all_zero (c : ℕ → ℕ → ℕ) (m n : ℕ)
    (h : ∀ i j, i < m → j < n → c i j = 0) :
    mutual_info_from_contingency c m n = 0 := by
  unfold mutual_info_from_contingency
  apply Finset.sum_eq_zero
  intro i hi
  apply Finset.sum_eq_zero
  intro j hj
  rw [if_pos (h i j (Finset.mem_range.mp hi) (Finset.mem_range.mp hj))]

/-- Helper: the joint entropy of a contingency table is nonnegative. -/
theorem joint_entropy_nonneg (c : ℕ → ℕ → ℕ) (m n : ℕ) :
    0 ≤ joint_entropy_from_contingency c m n := by
  unfold joint_entropy_from_contingency
  apply Finset.sum_nonneg
  intro i hi
  apply Finset.sum_nonneg
  intro j hj
  split_ifs with hc
  · exact le_rfl
  · have hcp : (0 : ℝ) < c i j := by
      exact_mod_cast Nat.pos_of_ne_zero hc
    have hNn : c i j ≤ contTotal c m n :=
      cell_le_total c m n (Finset.mem_range.mp hi) (Finset.mem_range.mp hj)
    have hNp : (0 : ℝ) < contTotal c m n := by
      exact_mod_cast lt_of_lt_of_le (Nat.pos_of_ne_zero hc) hNn
    have hple : (c i j : ℝ) / contTotal c m n ≤ 1 :=
      div_le_one_of_le₀ (by exact_mod_cast hNn) hNp.le
    have hppos : 0 < (c i j : ℝ) / contTotal c m n := div_pos hcp hNp
    have hlog := Real.logb_nonpos (by norm_num : (1 : ℝ) < 2) hppos.le hple
    nlinarith [mul_nonneg hppos.le (neg_nonneg.mpr hlog)]

/-- Helper: cell by cell, the mutual-information summand is at most the
joint-entropy summand (because `n_ij² ≤ pi_i * pj_j`). -/
theorem mi_cont_le_joint_entropy (c : ℕ → ℕ → ℕ) (m n : ℕ) :
    mutual_info_from_contingency c m n ≤ joint_entropy_from_contingency c m n := by
  unfold mutual_info_from_contingency joint_entropy_from_contingency
  apply Finset.sum_le_sum
  intro i hi
  apply Finset.sum_le_sum
  intro j hj
  split_ifs with hc
  · exact le_rfl
  · have hcp : (0 : ℝ) < c i j := by exact_mod_cast Nat.pos_of_ne_zero hc
    have hriN : c i j ≤ rowSum c n i := cell_le_rowSum c n i (Finset.mem_range.mp hj)
    have hcjN : c i j ≤ colSum c m j := cell_le_colSum c m j (Finset.mem_range.mp hi)
    have hNn : c i j ≤ contTotal c m n :=
      cell_le_total c m n (Finset.mem_range.mp hi) (Finset.mem_range.mp hj)
    have hri : (0 : ℝ) < rowSum c n i := lt_of_lt_of_le hcp (by exact_mod_cast hriN)
    have hcj : (0 : ℝ) < colSum c m j := lt_of_lt_of_le hcp (by exact_mod_cast hcjN)
    have hNp : (0 : ℝ) < contTotal c m n := lt_of_lt_of_le hcp (by exact_mod_cast hNn)
    have hppos : 0 < (c i j : ℝ) / contTotal c m n := div_pos hcp hNp
    have hsq : (c i j : ℝ) * c i j ≤ (rowSum c n i : ℝ) * colSum c m j :=
      mul_le_mul (by exact_mod_cast hriN) (by exact_mod_cast hcjN) hcp.le hri.le
    have hlogsq : Real.logb 2 ((c i j : ℝ) * c i j) ≤
        Real.logb 2 ((rowSum c n i : ℝ) * colSum c m j) :=
      Real.logb_le_logb_of_le (by norm_num) (by positivity) hsq
    rw [Real.logb_mul hcp.ne' hcp.ne', Real.logb_mul hri.ne' hcj.ne'] at hlogsq
    rw [Real.logb_div hcp.ne' hNp.ne', Real.logb_mul hri.ne' hcj.ne']
    nlinarith [mul_nonneg hppos.le (sub_nonneg.mpr hlogsq)]

/-- Helper: the guarded cell probabilities sum to one on a nonempty table. -/
theorem sum_guard_p_eq_one (c : ℕ → ℕ → ℕ) (m n : ℕ) (hN : contTotal c m n ≠ 0) :
    ∑ i ∈ Finset.range m, ∑ j ∈ Finset.range n,
      (if c i j = 0 then (0 : ℝ) else (c i j : ℝ) / (contTotal c m n : ℝ)) = 1 := by
  have hcell : ∀ i j : ℕ,
      (if c i j = 0 then (0 : ℝ) else (c i j : ℝ) / (contTotal c m n : ℝ)) =
        (c i j : ℝ) / (contTotal c m n : ℝ) := by
    intro i j
    split_ifs with h
    · rw [h]
      simp
    · rfl
  calc ∑ i ∈ Finset.range m, ∑ j ∈ Finset.range n,
        (if c i j = 0 then (0 : ℝ) else (c i j : ℝ) / (contTotal c m n : ℝ))
      = ∑ i ∈ Finset.range m, ∑ j ∈ Finset.range n,
          (c i j : ℝ) / (contTotal c m n : ℝ) := by
        exact Finset.sum_congr rfl fun i _ => Finset.sum_congr rfl fun j _ => hcell i j
    _ = (∑ i ∈ Finset.range m, ∑ j ∈ Finset.range n, (c i j : ℝ)) /
          (contTotal c m n : ℝ) := by
        rw [Finset.sum_div]
        exact Finset.sum_congr rfl fun i _ => (Finset.sum_div _ _ _).symm
    _ = (contTotal c m n : ℝ) / (contTotal c m n : ℝ) := by
        congr 1
        rw [contTotal]
        push_cast
        rfl
    _ = 1 := div_self (by exact_mod_cast hN)

/-- Helper: the guarded products of marginals, normalized by `N²`, sum to
at most one. -/
theorem sum_guard_outer_le_one (c : ℕ → ℕ → ℕ) (m n : ℕ)
    (hN : contTotal c m n ≠ 0) :
    ∑ i ∈ Finset.range m, ∑ j ∈ Finset.range n,
      (if c i j = 0 then (0 : ℝ) else
        (rowSum c n i : ℝ) * (colSum c m j : ℝ) / (contTotal c m n : ℝ) ^ 2) ≤ 1 := by
  have hNp : (0 : ℝ) < contTotal c m n := by
    exact_mod_cast Nat.pos_of_ne_zero hN
  have hstep : ∑ i ∈ Finset.range m, ∑ j ∈ Finset.range n,
      (if c i j = 0 then (0 : ℝ) else
        (rowSum c n i : ℝ) * (colSum c m j : ℝ) / (contTotal c m n : ℝ) ^ 2) ≤
      ∑ i ∈ Finset.range m, ∑ j ∈ Finset.range n,
        (rowSum c n i : ℝ) * (colSum c m j : ℝ) / (contTotal c m n : ℝ) ^ 2 := by
    apply Finset.sum_le_sum
    intro i _
    apply Finset.sum_le_sum
    intro j _
    split_ifs
    · positivity
    · exact le_rfl
  refine le_trans hstep (le_of_eq ?_)
  have hrow : ∑ i ∈ Finset.range m, (rowSum c n i : ℝ) = (contTotal c m n : ℝ) := by
    rw [show contTotal c m n = ∑ i ∈ Finset.range m, rowSum c n i from rfl]
    push_cast
    rfl
  have hcol : ∑ j ∈ Finset.range n, (colSum c m j : ℝ) = (contTotal c m n : ℝ) := by
    rw [total_eq_sum_colSum c m n]
    push_cast
    rfl
  calc ∑ i ∈ Finset.range m, ∑ j ∈ Finset.range n,
        (rowSum c n i : ℝ) * (colSum c m j : ℝ) / (contTotal c m n : ℝ) ^ 2
      = (∑ i ∈ Finset.range m, ∑ j ∈ Finset.range n,
          (rowSum c n i : ℝ) * (colSum c m j : ℝ)) / (contTotal c m n : ℝ) ^ 2 := by
        rw [Finset.sum_div]
        exact Finset.sum_congr rfl fun i _ => (Finset.sum_div _ _ _).symm
    _ = ((contTotal c m n : ℝ) * (contTotal c m n : ℝ)) / (contTotal c m n : ℝ) ^ 2 := by
        rw [← Finset.sum_mul_sum, hrow, hcol]
    _ = 1 := by
        rw [sq]
        exact div_self (by positivity)

/-- Helper: Gibbs' inequality for the contingency mutual information: the
source's summand, summed over the table, is nonnegative. -/
theorem mi_cont_nonneg (c : ℕ → ℕ → ℕ) (m n : ℕ) :
    0 ≤ mutual_info_from_contingency c m n := by
  by_cases hN : contTotal c m n = 0
  · have hz : ∀ i j, i < m → j < n → c i j = 0 := fun i j hi hj =>
      Nat.le_zero.mp (hN ▸ cell_le_total c m n hi hj)
    rw [mi_cont_eq_zero_of_all_zero c m n hz]
  · have hNp : (0 : ℝ) < contTotal c m n := by
      exact_mod_cast Nat.pos_of_ne_zero hN
    have hlog2 : (0 : ℝ) < Real.log 2 := Real.log_pos (by norm_num)
    have hlower : ∀ i ∈ Finset.range m, ∀ j ∈ Finset.range n,
        (1 / Real.log 2) *
            ((if c i j = 0 then (0 : ℝ) else (c i j : ℝ) / (contTotal c m n : ℝ)) -
              (if c i j = 0 then (0 : ℝ) else
                (rowSum c n i : ℝ) * (colSum c m j : ℝ) / (contTotal c m n : ℝ) ^ 2)) ≤
          (if c i j = 0 then 0 else
            (c i j : ℝ) / (contTotal c m n : ℝ) *
                (Real.logb 2 (c i j : ℝ) - Real.logb 2 (contTotal c m n : ℝ)) +
              (c i j : ℝ) / (contTotal c m n : ℝ) *
                (-Real.logb 2 ((rowSum c n i : ℝ) * (colSum c m j : ℝ)) +
                  Real.logb 2 (contTotal c m n : ℝ) +
                  Real.logb 2 (contTotal c m n : ℝ))) := by
      intro i hi j hj
      split_ifs with hc
      · simp
      · have hcp : (0 : ℝ) < c i j := by exact_mod_cast Nat.pos_of_ne_zero hc
        have hriN : c i j ≤ rowSum c n i := cell_le_rowSum c n i (Finset.mem_range.mp hj)
        have hcjN : c i j ≤ colSum c m j := cell_le_colSum c m j (Finset.mem_range.mp hi)
        have hri : (0 : ℝ) < rowSum c n i := lt_of_lt_of_le hcp (by exact_mod_cast hriN)
        have hcj : (0 : ℝ) < colSum c m j := lt_of_lt_of_le hcp (by exact_mod_cast hcjN)
        have hlog : Real.log ((rowSum c n i : ℝ) * (colSum c m j : ℝ) /
              ((c i j : ℝ) * (contTotal c m n : ℝ))) ≤
            (rowSum c n i : ℝ) * (colSum c m j : ℝ) /
              ((c i j : ℝ) * (contTotal c m n : ℝ)) - 1 :=
          Real.log_le_sub_one_of_pos (by positivity)
        have hexp : Real.log ((rowSum c n i : ℝ) * (colSum c m j : ℝ) /
              ((c i j : ℝ) * (contTotal c m n : ℝ))) =
            Real.log (rowSum c n i : ℝ) + Real.log (colSum c m j : ℝ) -
              Real.log (c i j : ℝ) - Real.log (contTotal c m n : ℝ) := by
          rw [Real.log_div (by positivity) (by positivity),
            Real.log_mul hri.ne' hcj.ne', Real.log_mul hcp.ne' hNp.ne']
          ring
        have hterm : (c i j : ℝ) / (contTotal c m n : ℝ) *
                (Real.logb 2 (c i j : ℝ) - Real.logb 2 (contTotal c m n : ℝ)) +
              (c i j : ℝ) / (contTotal c m n : ℝ) *
                (-Real.logb 2 ((rowSum c n i : ℝ) * (colSum c m j : ℝ)) +
                  Real.logb 2 (contTotal c m n : ℝ) +
                  Real.logb 2 (contTotal c m n : ℝ)) =
            ((c i j : ℝ) / (contTotal c m n : ℝ) / Real.log 2) *
              (Real.log (c i j : ℝ) + Real.log (contTotal c m n : ℝ) -
                Real.log (rowSum c n i : ℝ) - Real.log (colSum c m j : ℝ)) := by
          simp only [Real.logb]
          rw [Real.log_mul hri.ne' hcj.ne']
          field_simp
          ring
        have hmain : 1 - (rowSum c n i : ℝ) * (colSum c m j : ℝ) /
              ((c i j : ℝ) * (contTotal c m n : ℝ)) ≤
            Real.log (c i j : ℝ) + Real.log (contTotal c m n : ℝ) -
              Real.log (rowSum c n i : ℝ) - Real.log (colSum c m j : ℝ) := by
          rw [hexp] at hlog
          linarith
        rw [hterm]
        have hfold : (1 / Real.log 2) *
              ((c i j : ℝ) / (contTotal c m n : ℝ) -
                (rowSum c n i : ℝ) * (colSum c m j : ℝ) / (contTotal c m n : ℝ) ^ 2) =
            ((c i j : ℝ) / (contTotal c m n : ℝ) / Real.log 2) *
              (1 - (rowSum c n i : ℝ) * (colSum c m j : ℝ) /
                ((c i j : ℝ) * (contTotal c m n : ℝ))) := by
          field_simp
          ring
        rw [hfold]
        exact mul_le_mul_of_nonneg_left hmain (by positivity)
    have hsum : (1 / Real.log 2) *
          ((∑ i ∈ Finset.range m, ∑ j ∈ Finset.range n,
            (if c i j = 0 then (0 : ℝ) else (c i j : ℝ) / (contTotal c m n : ℝ))) -
            ∑ i ∈ Finset.range m, ∑ j ∈ Finset.range n,
              (if c i j = 0 then (0 : ℝ) else
                (rowSum c n i : ℝ) * (colSum c m j : ℝ) / (contTotal c m n : ℝ) ^ 2)) ≤
        mutual_info_from_contingency c m n := by
      unfold mutual_info_from_contingency
      rw [← Finset.sum_sub_distrib, Finset.mul_sum]
      apply Finset.sum_le_sum
      intro i hi
      rw [← Finset.sum_sub_distrib, Finset.mul_sum]
      apply Finset.sum_le_sum
      intro j hj
      exact hlower i hi j hj
    refine le_trans ?_ hsum
    rw [sum_guard_p_eq_one c m n hN]
    have houter := sum_guard_outer_le_one c m n hN
    have h2 : (0 : ℝ) ≤ 1 / Real.log 2 := by positivity
    nlinarith
  -- end of the nonzero-total case

/-- Helper: on a diagonal table the mutual information equals the joint
entropy (each nonzero cell's marginals both equal the cell). -/
theorem mi_cont_eq_joint_entropy_of_diagonal (c : ℕ → ℕ → ℕ) (n : ℕ)
    (hd : ∀ i j, i ≠ j → c i j = 0) :
    mutual_info_from_contingency c n n = joint_entropy_from_contingency c n n := by
  unfold mutual_info_from_contingency joint_entropy_from_contingency
  apply Finset.sum_congr rfl
  intro i hi
  apply Finset.sum_congr rfl
  intro j hj
  by_cases hij : i = j
  · subst hij
    split_ifs with hc
    · rfl
    · have hrow : rowSum c n i = c i i :=
        Finset.sum_eq_single_of_mem i hi fun b _ hb => hd i b fun h => hb h.symm
      have hcol : colSum c n i = c i i :=
        Finset.sum_eq_single_of_mem i hi fun b _ hb => hd b i hb
      have hcp : (0 : ℝ) < c i i := by exact_mod_cast Nat.pos_of_ne_zero hc
      have hNn : c i i ≤ contTotal c n n :=
        cell_le_total c n n (Finset.mem_range.mp hi) (Finset.mem_range.mp hi)
      have hNp : (0 : ℝ) < contTotal c n n := lt_of_lt_of_le hcp (by exact_mod_cast hNn)
      rw [hrow, hcol, Real.logb_mul hcp.ne' hcp.ne', Real.logb_div hcp.ne' hNp.ne']
      ring
  · rw [if_pos (hd i j hij), if_pos (hd i j hij)]

/-- Helper: a table supported on a single row carries zero mutual
information (its columns coincide with its cells and its single row with
the total). -/
theorem mi_cont_eq_zero_of_single_row (c : ℕ → ℕ → ℕ) (m n i0 : ℕ)
    (hrow : ∀ i j, i ≠ i0 → c i j = 0) :
    mutual_info_from_contingency c m n = 0 := by
  by_cases hm : i0 < m
  · unfold mutual_info_from_contingency
    apply Finset.sum_eq_zero
    intro i hi
    apply Finset.sum_eq_zero
    intro j hj
    by_cases hii : i = i0
    · subst hii
      split_ifs with hc
      · rfl
      · have htotal : contTotal c m n = rowSum c n i := by
          rw [show contTotal c m n = ∑ x ∈ Finset.range m, rowSum c n x from rfl]
          refine Finset.sum_eq_single_of_mem i (Finset.mem_range.mpr hm) ?_
          intro b _ hb
          rw [rowSum]
          exact Finset.sum_eq_zero fun y _ => hrow b y hb
        have hcol : colSum c m j = c i j :=
          Finset.sum_eq_single_of_mem i (Finset.mem_range.mpr hm)
            fun b _ hb => hrow b j hb
        have hcp : (0 : ℝ) < c i j := by exact_mod_cast Nat.pos_of_ne_zero hc
        have hriN : c i j ≤ rowSum c n i := cell_le_rowSum c n i (Finset.mem_range.mp hj)
        have hri : (0 : ℝ) < rowSum c n i := lt_of_lt_of_le hcp (by exact_mod_cast hriN)
        have hNp : (0 : ℝ) < contTotal c m n := by
          rw [htotal]
          exact hri
        rw [hcol, ← htotal, Real.logb_mul hNp.ne' hcp.ne']
        ring
    · rw [if_pos (hrow i j hii)]
  · apply mi_cont_eq_zero_of_all_zero
    intro i j hi _
    exact hrow i j fun h => hm (h ▸ hi)

/-- Helper: a vanishing joint entropy forces every nonzero cell to hold the
whole mass. -/
theorem cell_eq_total_of_joint_entropy_eq_zero (c : ℕ → ℕ → ℕ) (m n : ℕ)
    (hje : joint_entropy_from_contingency c m n = 0) :
    ∀ i j, i < m → j < n → c i j ≠ 0 → c i j = contTotal c m n := by
  intro i j hi hj hc
  have hterm_nonneg : ∀ i ∈ Finset.range m, ∀ j ∈ Finset.range n,
      (0 : ℝ) ≤ (if c i j = 0 then 0 else
        -((c i j : ℝ) / (contTotal c m n : ℝ)) *
          Real.logb 2 ((c i j : ℝ) / (contTotal c m n : ℝ))) := by
    intro i hi j hj
    split_ifs with hc0
    · exact le_rfl
    · have hcp : (0 : ℝ) < c i j := by exact_mod_cast Nat.pos_of_ne_zero hc0
      have hNn : c i j ≤ contTotal c m n :=
        cell_le_total c m n (Finset.mem_range.mp hi) (Finset.mem_range.mp hj)
      have hNp : (0 : ℝ) < contTotal c m n := lt_of_lt_of_le hcp (by exact_mod_cast hNn)
      have hple : (c i j : ℝ) / contTotal c m n ≤ 1 :=
        div_le_one_of_le₀ (by exact_mod_cast hNn) hNp.le
      have hppos : 0 < (c i j : ℝ) / contTotal c m n := div_pos hcp hNp
      have hlog := Real.logb_nonpos (by norm_num : (1 : ℝ) < 2) hppos.le hple
      nlinarith [mul_nonneg hppos.le (neg_nonneg.mpr hlog)]
  have hinner_zero : ∀ x ∈ Finset.range m, (∑ y ∈ Finset.range n,
      (if c x y = 0 then (0 : ℝ) else
        -((c x y : ℝ) / (contTotal c m n : ℝ)) *
          Real.logb 2 ((c x y : ℝ) / (contTotal c m n : ℝ)))) = 0 := by
    apply (Finset.sum_eq_zero_iff_of_nonneg ?_).mp hje
    intro x hx
    exact Finset.sum_nonneg fun y hy => hterm_nonneg x hx y hy
  have hcell_zero := (Finset.sum_eq_zero_iff_of_nonneg
      (fun y hy => hterm_nonneg i (Finset.mem_range.mpr hi) y hy)).mp
    (hinner_zero i (Finset.mem_range.mpr hi)) j (Finset.mem_range.mpr hj)
  rw [if_neg hc] at hcell_zero
  have hcp : (0 : ℝ) < c i j := by exact_mod_cast Nat.pos_of_ne_zero hc
  have hNn : c i j ≤ contTotal c m n := cell_le_total c m n hi hj
  have hNp : (0 : ℝ) < contTotal c m n := lt_of_lt_of_le hcp (by exact_mod_cast hNn)
  have hppos : 0 < (c i j : ℝ) / contTotal c m n := div_pos hcp hNp
  have hlogz : Real.logb 2 ((c i j : ℝ) / contTotal c m n) = 0 := by
    rcases mul_eq_zero.mp hcell_zero with h | h
    · exact absurd (neg_eq_zero.mp h) (ne_of_gt hppos)
    · exact h
  have hp1 : (c i j : ℝ) / contTotal c m n = 1 := by
    rcases Real.logb_eq_zero.mp hlogz with h | h | h | h | h | h
    · norm_num at h
    · norm_num at h
    · norm_num at h
    · exact absurd h (ne_of_gt hppos)
    · exact h
    · exact absurd h (by nlinarith)
  have := (div_eq_one_iff_eq hNp.ne').mp hp1
  exact_mod_cast this

/-- Helper: a nonzero total yields a nonzero cell inside the rectangle. -/
theorem exists_nonzero_cell (c : ℕ → ℕ → ℕ) (m n : ℕ)
    (hN : contTotal c m n ≠ 0) :
    ∃ i j, i < m ∧ j < n ∧ c i j ≠ 0 := by
  by_contra h
  push_neg at h
  apply hN
  unfold contTotal
  apply Finset.sum_eq_zero
  intro i hi
  apply Finset.sum_eq_zero
  intro j hj
  exact h i j (Finset.mem_range.mp hi) (Finset.mem_range.mp hj)

/-- Helper: a table whose every cell is either empty or holds the whole
mass has zero joint entropy (its only probabilities are `1`). -/
theorem joint_entropy_eq_zero_of_all_full (c : ℕ → ℕ → ℕ) (m n : ℕ)
    (h : ∀ i j, i < m → j < n → c i j = 0 ∨ c i j = contTotal c m n) :
    joint_entropy_from_contingency c m n = 0 := by
  unfold joint_entropy_from_contingency
  apply Finset.sum_eq_zero
  intro i hi
  apply Finset.sum_eq_zero
  intro j hj
  rcases h i j (Finset.mem_range.mp hi) (Finset.mem_range.mp hj) with h0 | hfull
  · rw [if_pos h0]
  · split_ifs with hc
    · rfl
    · have hN0 : contTotal c m n ≠ 0 := by
        rw [← hfull]
        exact hc
      have hp1 : (c i j : ℝ) / (contTotal c m n : ℝ) = 1 := by
        rw [hfull]
        exact div_self (by exact_mod_cast hN0)
      rw [hp1]
      simp

/-- Helper: the constant image `[5, 5]` drives all histogram mass into the
single cell `(i0, i0)` of its degenerate bin `i0`, so its joint entropy is
exactly zero — the denominator of the normalized mutual information. -/
theorem joint_entropy_constant_five_eq_zero :
    joint_entropy_from_contingency (hist2d [5, 5] [5, 5] 256) 256 256 = 0 := by
  set i0 := binIndex (listMin [5, 5]) (listMax [5, 5]) 256 5 with hi0
  have hall : ∀ v ∈ ([5, 5] : List ℚ),
      binIndex (listMin [5, 5]) (listMax [5, 5]) 256 v = i0 := by
    intro v hv
    have hv5 : v = 5 := by
      rcases List.mem_cons.mp hv with h | h
      · exact h
      · rcases List.mem_cons.mp h with h2 | h2
        · exact h2
        · simp at h2
    rw [hv5]
  have hi0lt : i0 < 256 := binIndex_lt _ _ _ _ (by norm_num)
  apply joint_entropy_eq_zero_of_all_full
  intro i j hi hj
  by_cases hii : i = i0
  · by_cases hjj : j = i0
    · subst hii
      subst hjj
      right
      symm
      rw [show contTotal (hist2d [5, 5] [5, 5] 256) 256 256 =
          ∑ x ∈ Finset.range 256, rowSum (hist2d [5, 5] [5, 5] 256) 256 x from rfl]
      rw [Finset.sum_eq_single_of_mem i0 (Finset.mem_range.mpr hi0lt) fun b _ hb => by
        rw [rowSum]
        exact Finset.sum_eq_zero fun y _ => hist2d_single_row [5, 5] [5, 5] 256 i0 hall hb y]
      rw [rowSum]
      exact Finset.sum_eq_single_of_mem i0 (Finset.mem_range.mpr hi0lt)
        fun b _ hb => hist2d_self_diagonal [5, 5] 256 fun h => hb h.symm
    · left
      subst hii
      exact hist2d_self_diagonal [5, 5] 256 fun h => hjj h.symm
  · left
    exact hist2d_single_row [5, 5] [5, 5] 256 i0 hall hii j

/-- Counterexample to C8 as stated: at the constant image `a = [5, 5]` the
joint entropy of the self-histogram is `0`, so the program computes
`0.0 / 0.0 = NaN` (modelled as `none`).  The returned value therefore
neither compares `≥` against `mutual_information(a, b)` for `b = [0, 1]`
nor lies in `[0, 1]`. -/
theorem mutual_information_constant_image_nan :
    mutual_information [5, 5] [5, 5] = none ∧
    (¬∃ r s : ℝ, mutual_information [5, 5] [5, 5] = some r ∧
      mutual_information [5, 5] [0, 1] = some s ∧ s ≤ r) ∧
    (¬∃ r : ℝ, mutual_information [5, 5] [5, 5] = some r ∧ 0 ≤ r ∧ r ≤ 1) := by
  have h1 : mutual_information [5, 5] [5, 5] = none := by
    unfold mutual_information npDiv
    rw [if_pos joint_entropy_constant_five_eq_zero]
  refine ⟨h1, ?_, ?_⟩
  · rintro ⟨r, s, hr, -, -⟩
    rw [h1] at hr
    simp at hr
  · rintro ⟨r, hr, -⟩
    rw [h1] at hr
    simp at hr

/-- C8 (amended): whenever the joint entropy of the pair's histogram is
nonzero, the normalized mutual information is a finite value in `[0, 1]`;
and whenever the self-histogram's joint entropy is nonzero,
`mutual_information(a, a)` equals `1` and so bounds every finite
`mutual_information(a, b)` from above.  (For a constant `a` both joint
entropies degenerate to `0` and the program returns `NaN`, see the
counterexample.) -/
theorem mutual_information_bounds_of_entropy_ne_zero (a b : List ℚ)
    (_hlen : a.length = b.length) :
    (joint_entropy_from_contingency (hist2d a b 256) 256 256 ≠ 0 →
      ∃ r : ℝ, mutual_information a b = some r ∧ 0 ≤ r ∧ r ≤ 1) ∧
    (joint_entropy_from_contingency (hist2d a a 256) 256 256 ≠ 0 →
      mutual_information a a = some 1 ∧
        ∀ s : ℝ, mutual_information a b = some s → s ≤ 1) := by
  have hbounds : ∀ x y : List ℚ,
      joint_entropy_from_contingency (hist2d x y 256) 256 256 ≠ 0 →
      ∃ r : ℝ, mutual_information x y = some r ∧ 0 ≤ r ∧ r ≤ 1 := by
    intro x y hje
    have hjepos : 0 < joint_entropy_from_contingency (hist2d x y 256) 256 256 :=
      lt_of_le_of_ne (joint_entropy_nonneg _ _ _) (Ne.symm hje)
    refine ⟨mutual_info_from_contingency (hist2d x y 256) 256 256 /
      joint_entropy_from_contingency (hist2d x y 256) 256 256, ?_, ?_, ?_⟩
    · unfold mutual_information npDiv
      rw [if_neg hje]
    · exact div_nonneg (mi_cont_nonneg _ _ _) hjepos.le
    · rw [div_le_one hjepos]
      exact mi_cont_le_joint_entropy _ _ _
  refine ⟨hbounds a b, ?_⟩
  intro hje0
  constructor
  · unfold mutual_information npDiv
    rw [if_neg hje0, mi_cont_eq_joint_entropy_of_diagonal _ _
      (fun i j hij => hist2d_self_diagonal a 256 hij), div_self hje0]
  · intro s hs
    by_cases hjeb : joint_entropy_from_contingency (hist2d a b 256) 256 256 = 0
    · rw [show mutual_information a b = none by
        unfold mutual_information npDiv
        rw [if_pos hjeb]] at hs
      simp at hs
    · obtain ⟨r, hr, -, hr1⟩ := hbounds a b hjeb
      rw [hr] at hs
      rw [← Option.some.injEq r s |>.mp hs]
      exact hr1

/-- Witness for C8 (amended) at the concrete images `a = [0, 1]`,
`b = [1, 0]`. -/
theorem mutual_information_bounds_witness :
    ([0, 1] : List ℚ).length = ([1, 0] : List ℚ).length ∧
    ((joint_entropy_from_contingency (hist2d [0, 1] [1, 0] 256) 256 256 ≠ 0 →
      ∃ r : ℝ, mutual_information [0, 1] [1, 0] = some r ∧ 0 ≤ r ∧ r ≤ 1) ∧
    (joint_entropy_from_contingency (hist2d [0, 1] [0, 1] 256) 256 256 ≠ 0 →
      mutual_information [0, 1] [0, 1] = some 1 ∧
        ∀ s : ℝ, mutual_information [0, 1] [1, 0] = some s → s ≤ 1)) :=
  ⟨by decide, mutual_information_bounds_of_entropy_ne_zero [0, 1] [1, 0] (by decide)⟩

end Noise2Same
